import Mathlib

/-!
Verification of the lineage-reconstruction core of `msm_we` (`_lagtime.py`):
`get_history_graph` builds a directed graph connecting every weighted-ensemble
trajectory segment to its immediate parent (a segment of the previous
iteration, or an initial state), and `child_to_parent_mapping` resolves the
ancestor exactly `degree` hops back via a power of the adjacency matrix.

The embedding mirrors the Python source.  A Python exception surfacing from
the code is modelled by `Except.error` carrying the exception's kind:
`indexError` (list index out of range in `parent_segments[segment.parent_id]`),
`keyError` (missing key in `initial_states[state_id]`), `networkXError`
(`nx.adjacency_matrix` on a graph with no nodes), `valueError`
(`scipy` sparse-matrix power with a negative exponent).
-/

inductive PyError where
  | indexError
  | keyError
  | networkXError
  | valueError
deriving DecidableEq, Repr

/-- A node of the history graph.  The Python code uses object identity of the
`Segment` / `InitialState` records; a segment object is determined by the
iteration that produced it and its position in that iteration's ordered list,
an initial-state object by the iteration at which it was fetched and its
`state_id`. -/
inductive Node where
  | segment (n_iter index : Nat)
  | initialState (n_iter state_id : Nat)
deriving DecidableEq, Repr

def Node.isSegment : Node → Bool
  | .segment _ _ => true
  | .initialState _ _ => false

def Node.isInitialState : Node → Bool
  | .segment _ _ => false
  | .initialState _ _ => true

/-- A directed graph as `networkx.DiGraph` keeps it: nodes in insertion
order, and the set of directed edges. -/
structure Graph where
  nodes : List Node
  edges : List (Node × Node)
deriving DecidableEq, Repr

def Graph.addNode (g : Graph) (u : Node) : Graph :=
  if u ∈ g.nodes then g else { g with nodes := g.nodes ++ [u] }

/-- `DiGraph.add_edge u v`: add `u` then `v` as nodes when absent, then the
edge `u → v` when absent. -/
def Graph.addEdge (g : Graph) (u v : Node) : Graph :=
  let g1 := (g.addNode u).addNode v
  if (u, v) ∈ g1.edges then g1 else { g1 with edges := g1.edges ++ [(u, v)] }

def Graph.empty : Graph := ⟨[], []⟩

instance {ε α : Type} [DecidableEq ε] [DecidableEq α] :
    DecidableEq (Except ε α) := fun a b =>
  match a, b with
  | .ok x, .ok y =>
    if h : x = y then .isTrue (by rw [h]) else .isFalse fun hh => h (Except.ok.inj hh)
  | .ok _, .error _ => .isFalse fun hh => Except.noConfusion hh
  | .error _, .ok _ => .isFalse fun hh => Except.noConfusion hh
  | .error e, .error e' =>
    if h : e = e' then .isTrue (by rw [h])
    else .isFalse fun hh => h (Except.error.inj hh)

/-- The data manager's view of a simulation archive: `current_iteration`, the
ordered list of segments of each iteration (a segment record is its signed
`parent_id`), and the `state_id`s of each iteration's initial states. -/
structure WEData where
  current_iteration : Nat
  segments : Nat → List Int
  initial_states : Nat → List Nat

/-- Decoding of one segment's `parent_id` against the retained previous
iteration's segment list (of length `prevLen`) and the initial states fetched
at the segment's own iteration `n_iter`, exactly as the loop body of
`get_history_graph` does:

* `parent_id >= 0`: `parent = parent_segments[parent_id]`, the segment at
  index `parent_id` of iteration `n_iter - 1` (Python `IndexError` when the
  index is out of range);
* `parent_id < 0`: `state_id = -(parent_id + 1)` and
  `parent = initial_states[state_id]` (Python `KeyError` when absent). -/
def decodeParent (n_iter prevLen : Nat) (istates : List Nat) (pid : Int) :
    Except PyError Node :=
  if 0 ≤ pid then
    if pid.toNat < prevLen then .ok (.segment (n_iter - 1) pid.toNat)
    else .error .indexError
  else
    let state_id := (-(pid + 1)).toNat
    if state_id ∈ istates then .ok (.initialState n_iter state_id)
    else .error .keyError

/-- The inner `for segment in segments` loop of `get_history_graph`,
processing the segments of iteration `n_iter` from position `startIdx` on. -/
def addIterEdges (n_iter prevLen : Nat) (istates : List Nat) :
    List Int → Nat → Graph → Except PyError Graph
  | [], _, g => .ok g
  | pid :: rest, startIdx, g => do
    let parent ← decodeParent n_iter prevLen istates pid
    addIterEdges n_iter prevLen istates rest (startIdx + 1)
      (g.addEdge (.segment n_iter startIdx) parent)

/-- The outer `for n_iter in range(1, current_iteration)` loop: `k` is the
number of iterations still to process, `n` the current iteration number and
`prev` the retained `parent_segments` list. -/
def buildLoop (d : WEData) : Nat → Nat → List Int → Graph → Except PyError Graph
  | 0, _, _, g => .ok g
  | k + 1, n, prev, g => do
    let segs := d.segments n
    let g' ← addIterEdges n prev.length (d.initial_states n) segs 0 g
    buildLoop d k (n + 1) segs g'

/-- `get_history_graph`: fold the per-iteration edge construction over
iterations `1, ..., current_iteration - 1`, starting from the empty graph and
an empty `parent_segments` list. -/
def get_history_graph (d : WEData) : Except PyError Graph :=
  buildLoop d (d.current_iteration - 1) 1 [] Graph.empty

/-- `nx.adjacency_matrix`: entry `(i, j)` is `1` when the graph has an edge
from `nodes[i]` to `nodes[j]`, else `0`, with rows and columns indexed by the
node list in insertion order. -/
def adjacencyMatrix (g : Graph) :
    Matrix (Fin g.nodes.length) (Fin g.nodes.length) ℕ :=
  Matrix.of fun i j => if (g.nodes.get i, g.nodes.get j) ∈ g.edges then 1 else 0

/-- `scipy.sparse.find`: the positions of the nonzero entries of the matrix,
in row-major order. -/
def matFind {m : Nat} (M : Matrix (Fin m) (Fin m) ℕ) : List (Fin m × Fin m) :=
  (List.finRange m).flatMap fun i =>
    (List.finRange m).filterMap fun j => if M i j ≠ 0 then some (i, j) else none

/-- One Python `dict` assignment `mapping[k] = v` on an association list:
update the existing entry for `k` in place, or append a fresh one. -/
def dictInsert (m : List (Node × Node)) (k v : Node) : List (Node × Node) :=
  match m with
  | [] => [(k, v)]
  | (k', v') :: rest =>
    if k' = k then (k, v) :: rest else (k', v') :: dictInsert rest k v

/-- The `mapping[nodes[i]] = nodes[j]` loop over the nonzero positions. -/
def buildMapping (nodes : List Node)
    (pairs : List (Fin nodes.length × Fin nodes.length)) : List (Node × Node) :=
  pairs.foldl (fun acc p => dictInsert acc (nodes.get p.1) (nodes.get p.2)) []

/-- `child_to_parent_mapping(history_graph, degree=1)`: raise the adjacency
matrix to the `degree`-th power and read each nonzero entry `(i, j)` as
`mapping[nodes[i]] = nodes[j]`.  An omitted `degree` argument is `none` and
stands for the Python default `1`.  `nx.adjacency_matrix` raises on a graph
with no nodes; the sparse matrix power raises on a negative exponent and
yields the identity matrix at exponent `0`. -/
def child_to_parent_mapping (history_graph : Graph) (degree : Option Int) :
    Except PyError (List (Node × Node)) :=
  let deg := degree.getD 1
  if history_graph.nodes.length = 0 then .error .networkXError
  else if deg < 0 then .error .valueError
  else .ok (buildMapping history_graph.nodes
    (matFind (adjacencyMatrix history_graph ^ deg.toNat)))

/-- Out-degree of a node: the number of edges leaving it. -/
def Graph.outDeg (g : Graph) (u : Node) : Nat :=
  (g.edges.filter fun e => e.1 == u).length

/-- `PathLen g d u v`: the graph has a directed path of length exactly `d`
from `u` to `v`. -/
def PathLen (g : Graph) : Nat → Node → Node → Prop
  | 0, u, v => u = v
  | d + 1, u, w => ∃ v, (u, v) ∈ g.edges ∧ PathLen g d v w

/-- The length of the `parent_segments` list retained when the loop body of
`get_history_graph` processes iteration `n`. -/
def prevLenOf (d : WEData) (n : Nat) : Nat :=
  if n = 1 then 0 else (d.segments (n - 1)).length

/-- `Justified d m i v`: iteration `m` lies in the processed range, position
`i` is in range for iteration `m`'s segment list, and the `parent_id` there
decodes to the parent `v`. -/
def Justified (d : WEData) (m i : Nat) (v : Node) : Prop :=
  1 ≤ m ∧ m < d.current_iteration ∧
    ∃ h : i < (d.segments m).length,
      decodeParent m (prevLenOf d m) (d.initial_states m)
        ((d.segments m).get ⟨i, h⟩) = .ok v

/-- Scenario A: three completed iterations. -/
def dA : WEData where
  current_iteration := 4
  segments
    | 1 => [-1, -2]
    | 2 => [0, 1]
    | 3 => [0]
    | _ => []
  initial_states
    | 1 => [0, 1]
    | _ => []

/-- The history graph of Scenario A. -/
def gA : Graph where
  nodes := [.segment 1 0, .initialState 1 0, .segment 1 1, .initialState 1 1,
            .segment 2 0, .segment 2 1, .segment 3 0]
  edges := [(.segment 1 0, .initialState 1 0), (.segment 1 1, .initialState 1 1),
            (.segment 2 0, .segment 1 0), (.segment 2 1, .segment 1 1),
            (.segment 3 0, .segment 2 0)]

/-- Scenario D: an empty simulation, `current_iteration = 1` and no segments. -/
def dEmpty : WEData where
  current_iteration := 1
  segments _ := []
  initial_states _ := []

/-- Scenario B: the single segment of iteration 2 carries `parent_id = 5`
while iteration 1 produced only 3 segments. -/
def dB : WEData where
  current_iteration := 3
  segments
    | 1 => [-1, -1, -1]
    | 2 => [5]
    | _ => []
  initial_states
    | 1 => [0]
    | _ => []

/-- A variant of Scenario B: the single segment of iteration 2 carries
`parent_id = -5`, whose derived `state_id = 4` is not among the initial
states. -/
def dBk : WEData where
  current_iteration := 3
  segments
    | 1 => [-1, -1, -1]
    | 2 => [-5]
    | _ => []
  initial_states
    | 1 => [0]
    | _ => []

/-- The loop invariant of the genealogy construction: `MidInv d n startIdx g`
describes the graph after processing all segments of iterations `1, ..., n-1`
and the first `startIdx` segments of iteration `n`. -/
structure MidInv (d : WEData) (n startIdx : Nat) (g : Graph) : Prop where
  nodup : g.nodes.Nodup
  endp : ∀ e ∈ g.edges, e.1 ∈ g.nodes ∧ e.2 ∈ g.nodes
  srcN : (g.edges.map Prod.fst).Nodup
  sound : ∀ u v, (u, v) ∈ g.edges → ∃ m i, u = .segment m i ∧ Justified d m i v
  segEdge : ∀ u ∈ g.nodes, u.isSegment = true → ∃ v, (u, v) ∈ g.edges
  bound : ∀ m i, Node.segment m i ∈ g.nodes → m < n ∨ (m = n ∧ i < startIdx)
  prevP : ∀ i, i < prevLenOf d n → Node.segment (n - 1) i ∈ g.nodes
  compl : ∀ m i, (m < n ∨ (m = n ∧ i < startIdx)) → 1 ≤ m →
    m < d.current_iteration → ∀ h : i < (d.segments m).length,
      ∃ v, decodeParent m (prevLenOf d m) (d.initial_states m)
            ((d.segments m).get ⟨i, h⟩) = .ok v ∧ (Node.segment m i, v) ∈ g.edges

theorem Graph.addNode_edges (g : Graph) (u : Node) : (g.addNode u).edges = g.edges := by
  unfold Graph.addNode
  split <;> rfl

theorem Graph.mem_addNode_iff (g : Graph) (u w : Node) :
    w ∈ (g.addNode u).nodes ↔ w ∈ g.nodes ∨ w = u := by
  unfold Graph.addNode
  split
  case isTrue h => exact ⟨Or.inl, fun hh => hh.elim id fun e => e ▸ h⟩
  case isFalse h =>
    show w ∈ g.nodes ++ [u] ↔ _
    simp [List.mem_append]

theorem Graph.addNode_nodup (g : Graph) (u : Node) (h : g.nodes.Nodup) :
    (g.addNode u).nodes.Nodup := by
  unfold Graph.addNode
  split
  case isTrue _ => exact h
  case isFalse hn =>
    show (g.nodes ++ [u]).Nodup
    rw [List.nodup_append]
    refine ⟨h, List.nodup_singleton u, ?_⟩
    intro a ha hb
    rw [List.mem_singleton] at hb
    exact hn (hb ▸ ha)

theorem Graph.addEdge_nodes (g : Graph) (u v : Node) :
    (g.addEdge u v).nodes = ((g.addNode u).addNode v).nodes := by
  unfold Graph.addEdge
  dsimp only
  split <;> rfl

theorem Graph.mem_addEdge_iff (g : Graph) (u v w : Node) :
    w ∈ (g.addEdge u v).nodes ↔ w ∈ g.nodes ∨ w = u ∨ w = v := by
  rw [Graph.addEdge_nodes, Graph.mem_addNode_iff, Graph.mem_addNode_iff, or_assoc]

theorem Graph.addEdge_nodes_nodup (g : Graph) (u v : Node) (h : g.nodes.Nodup) :
    (g.addEdge u v).nodes.Nodup := by
  rw [Graph.addEdge_nodes]
  exact Graph.addNode_nodup _ _ (Graph.addNode_nodup _ _ h)

theorem Graph.addEdge_edges_of_fresh (g : Graph) (u v : Node)
    (h : (u, v) ∉ g.edges) : (g.addEdge u v).edges = g.edges ++ [(u, v)] := by
  unfold Graph.addEdge
  dsimp only
  simp only [Graph.addNode_edges]
  rw [if_neg h]

theorem addIterEdges_inv (d : WEData) (n : Nat) (hn1 : 1 ≤ n)
    (hnC : n < d.current_iteration) (pids : List Int) :
    ∀ (startIdx : Nat) (g g' : Graph),
      pids = (d.segments n).drop startIdx →
      MidInv d n startIdx g →
      addIterEdges n (prevLenOf d n) (d.initial_states n) pids startIdx g = .ok g' →
      MidInv d n (startIdx + pids.length) g' := by
  induction pids with
  | nil =>
    intro startIdx g g' _ inv hrun
    simp only [addIterEdges] at hrun
    cases hrun
    simpa using inv
  | cons pid rest ih =>
    intro startIdx g g' hdrop inv hrun
    have hlt : startIdx < (d.segments n).length := by
      by_contra hge
      rw [List.drop_eq_nil_of_le (Nat.le_of_not_lt hge)] at hdrop
      exact List.noConfusion hdrop
    have hcons : pid :: rest =
        (d.segments n).get ⟨startIdx, hlt⟩ :: List.drop (startIdx + 1) (d.segments n) := by
      rw [hdrop]
      exact List.drop_eq_get_cons hlt
    have hpid : (d.segments n).get ⟨startIdx, hlt⟩ = pid := (List.cons.inj hcons).1.symm
    have hrest : rest = (d.segments n).drop (startIdx + 1) := (List.cons.inj hcons).2
    simp only [addIterEdges] at hrun
    cases hd : decodeParent n (prevLenOf d n) (d.initial_states n) pid with
    | error e =>
      rw [hd] at hrun
      simp [Bind.bind, Except.bind] at hrun
    | ok parent =>
      rw [hd] at hrun
      simp only [Bind.bind, Except.bind] at hrun
      have hparent : (0 ≤ pid ∧ pid.toNat < prevLenOf d n ∧
            parent = .segment (n - 1) pid.toNat) ∨
          (pid < 0 ∧ (-(pid + 1)).toNat ∈ d.initial_states n ∧
            parent = .initialState n (-(pid + 1)).toNat) := by
        unfold decodeParent at hd
        split at hd
        case isTrue hp =>
          split at hd
          case isTrue hq => exact .inl ⟨hp, hq, (Except.ok.inj hd).symm⟩
          case isFalse _ => exact absurd hd (by simp)
        case isFalse hp =>
          dsimp only at hd
          split at hd
          case isTrue hq => exact .inr ⟨Int.not_le.mp hp, hq, (Except.ok.inj hd).symm⟩
          case isFalse _ => exact absurd hd (by simp)
      have hunotin : Node.segment n startIdx ∉ g.nodes := fun hmem => by
        rcases inv.bound n startIdx hmem with h | ⟨_, h⟩ <;> omega
      have hpne : parent ≠ Node.segment n startIdx := by
        rcases hparent with ⟨_, _, rfl⟩ | ⟨_, _, rfl⟩
        · intro hh
          rw [Node.segment.injEq] at hh
          omega
        · intro hh
          exact Node.noConfusion hh
      have hpmem_or : parent ∈ g.nodes ∨ parent.isInitialState = true := by
        rcases hparent with ⟨_, hlt', rfl⟩ | ⟨_, _, rfl⟩
        · exact .inl (inv.prevP _ hlt')
        · exact .inr rfl
      have hedgefresh : (Node.segment n startIdx, parent) ∉ g.edges := fun he =>
        hunotin (inv.endp _ he).1
      have hedges1 : (g.addEdge (Node.segment n startIdx) parent).edges =
          g.edges ++ [(Node.segment n startIdx, parent)] :=
        Graph.addEdge_edges_of_fresh _ _ _ hedgefresh
      have hnodes1 : ∀ w, w ∈ (g.addEdge (Node.segment n startIdx) parent).nodes ↔
          w ∈ g.nodes ∨ w = Node.segment n startIdx ∨ w = parent :=
        fun w => Graph.mem_addEdge_iff g _ parent w
      have inv1 : MidInv d n (startIdx + 1) (g.addEdge (Node.segment n startIdx) parent) := by
        constructor
        · exact Graph.addEdge_nodes_nodup _ _ _ inv.nodup
        · intro e he
          rw [hedges1] at he
          rcases List.mem_append.mp he with h | h
          · exact ⟨(hnodes1 _).mpr (.inl (inv.endp e h).1),
              (hnodes1 _).mpr (.inl (inv.endp e h).2)⟩
          · rcases List.mem_singleton.mp h with rfl
            exact ⟨(hnodes1 _).mpr (.inr (.inl rfl)), (hnodes1 _).mpr (.inr (.inr rfl))⟩
        · rw [hedges1, List.map_append, List.nodup_append]
          refine ⟨inv.srcN, by simp, ?_⟩
          intro a ha hb
          simp only [List.map_cons, List.map_nil, List.mem_singleton] at hb
          rcases List.mem_map.mp ha with ⟨e, he, rfl⟩
          exact hunotin (hb ▸ (inv.endp e he).1)
        · intro w v' hw
          rw [hedges1] at hw
          rcases List.mem_append.mp hw with h | h
          · exact inv.sound w v' h
          · rcases List.mem_singleton.mp h with h'
            rw [Prod.mk.injEq] at h'
            refine ⟨n, startIdx, h'.1, hn1, hnC, hlt, ?_⟩
            rw [hpid, h'.2]
            exact hd
        · intro w hw hseg
          rcases (hnodes1 w).mp hw with h | h | h
          · obtain ⟨v', hv'⟩ := inv.segEdge w h hseg
            exact ⟨v', by rw [hedges1]; exact List.mem_append_left _ hv'⟩
          · exact ⟨parent, by rw [hedges1, h]; exact List.mem_append_right _ (by simp)⟩
          · rcases hpmem_or with pm | pinit
            · obtain ⟨v', hv'⟩ := inv.segEdge w (h ▸ pm) hseg
              exact ⟨v', by rw [hedges1]; exact List.mem_append_left _ hv'⟩
            · rw [h] at hseg
              cases parent <;> simp [Node.isSegment, Node.isInitialState] at hseg pinit
        · intro m i hmem
          rcases (hnodes1 _).mp hmem with h | h | h
          · rcases inv.bound m i h with h' | ⟨h1, h2⟩
            · exact .inl h'
            · exact .inr ⟨h1, by omega⟩
          · rw [Node.segment.injEq] at h
            exact .inr ⟨h.1, by omega⟩
          · rcases hparent with ⟨_, _, hp⟩ | ⟨_, _, hp⟩
            · rw [hp, Node.segment.injEq] at h
              exact .inl (by omega)
            · rw [hp] at h
              exact Node.noConfusion h
        · intro i hi
          exact (hnodes1 _).mpr (.inl (inv.prevP i hi))
        · intro m i hproc h1 hC hilen
          rcases hproc with hml | ⟨rfl, hi⟩
          · obtain ⟨v', hv1, hv2⟩ := inv.compl m i (.inl hml) h1 hC hilen
            exact ⟨v', hv1, by rw [hedges1]; exact List.mem_append_left _ hv2⟩
          · rcases Nat.lt_succ_iff_lt_or_eq.mp hi with hi' | rfl
            · obtain ⟨v', hv1, hv2⟩ := inv.compl m i (.inr ⟨rfl, hi'⟩) h1 hC hilen
              exact ⟨v', hv1, by rw [hedges1]; exact List.mem_append_left _ hv2⟩
            · refine ⟨parent, ?_, ?_⟩
              · have hpid' : (d.segments m).get ⟨i, hilen⟩ = pid := hpid
                rw [hpid']
                exact hd
              · rw [hedges1]
                exact List.mem_append_right _ (by simp)
      have hres := ih (startIdx + 1) (g.addEdge (Node.segment n startIdx) parent) g'
        hrest inv1 hrun
      have harith : startIdx + 1 + rest.length = startIdx + (pid :: rest).length := by
        simp only [List.length_cons]
        omega
      exact harith ▸ hres

theorem midInv_init (d : WEData) : MidInv d 1 0 Graph.empty := by
  constructor
  · exact List.nodup_nil
  · intro e he
    simp [Graph.empty] at he
  · simp [Graph.empty]
  · intro u v h
    simp [Graph.empty] at h
  · intro u hu
    simp [Graph.empty] at hu
  · intro m i h
    simp [Graph.empty] at h
  · intro i hi
    unfold prevLenOf at hi
    simp at hi
  · intro m i hproc h1 hC hilen
    rcases hproc with h | ⟨_, h⟩ <;> omega

theorem buildLoop_inv (d : WEData) (k : Nat) :
    ∀ (n : Nat) (prev : List Int) (g g' : Graph),
      1 ≤ n → n + k = max d.current_iteration 1 →
      prev = (if n = 1 then [] else d.segments (n - 1)) →
      MidInv d n 0 g →
      buildLoop d k n prev g = .ok g' →
      MidInv d (max d.current_iteration 1) 0 g' := by
  induction k with
  | zero =>
    intro n prev g g' hn hsum _ inv hrun
    simp only [buildLoop] at hrun
    cases hrun
    have hmax : n = max d.current_iteration 1 := by omega
    exact hmax ▸ inv
  | succ k ih =>
    intro n prev g g' hn hsum hprev inv hrun
    have hnC : n < d.current_iteration := by omega
    simp only [buildLoop] at hrun
    cases ha : addIterEdges n prev.length (d.initial_states n) (d.segments n) 0 g with
    | error e =>
      rw [ha] at hrun
      simp [Bind.bind, Except.bind] at hrun
    | ok g1 =>
      rw [ha] at hrun
      simp only [Bind.bind, Except.bind] at hrun
      have hplen : prev.length = prevLenOf d n := by
        rw [hprev]
        unfold prevLenOf
        split <;> simp
      rw [hplen] at ha
      have inv1 := addIterEdges_inv d n hn hnC (d.segments n) 0 g g1 (by simp) inv ha
      rw [Nat.zero_add] at inv1
      have hplen1 : prevLenOf d (n + 1) = (d.segments n).length := by
        unfold prevLenOf
        rw [if_neg (by omega)]
        simp
      have inv2 : MidInv d (n + 1) 0 g1 := by
        constructor
        · exact inv1.nodup
        · exact inv1.endp
        · exact inv1.srcN
        · exact inv1.sound
        · exact inv1.segEdge
        · intro m i h
          rcases inv1.bound m i h with h' | ⟨rfl, _⟩
          · exact .inl (by omega)
          · exact .inl (by omega)
        · intro i hi
          rw [hplen1] at hi
          obtain ⟨v, _, hv2⟩ := inv1.compl n i (.inr ⟨rfl, hi⟩) hn hnC hi
          exact (inv1.endp _ hv2).1
        · intro m i hproc h1 hC hilen
          rcases hproc with hml | ⟨_, hi0⟩
          · rcases Nat.lt_succ_iff_lt_or_eq.mp hml with hml' | rfl
            · exact inv1.compl m i (.inl hml') h1 hC hilen
            · exact inv1.compl m i (.inr ⟨rfl, hilen⟩) h1 hC hilen
          · omega
      exact ih (n + 1) (d.segments n) g1 g' (by omega) (by omega)
        (by rw [if_neg (by omega)]; simp) inv2 hrun

theorem built_inv (d : WEData) (g : Graph) (h : get_history_graph d = .ok g) :
    MidInv d (max d.current_iteration 1) 0 g :=
  buildLoop_inv d (d.current_iteration - 1) 1 [] Graph.empty g le_rfl (by omega)
    (by simp) (midInv_init d) h

theorem built_functional (d : WEData) (g : Graph) (h : get_history_graph d = .ok g) :
    ∀ u v v', (u, v) ∈ g.edges → (u, v') ∈ g.edges → v = v' := by
  intro u v v' h1 h2
  have heq := List.inj_on_of_nodup_map (built_inv d g h).srcN h1 h2 rfl
  exact congrArg Prod.snd heq

theorem built_seg_bound (d : WEData) (g : Graph) (h : get_history_graph d = .ok g) :
    ∀ m i, Node.segment m i ∈ g.nodes → 1 ≤ m ∧ m < d.current_iteration := by
  intro m i hmem
  obtain ⟨v, hv⟩ := (built_inv d g h).segEdge _ hmem rfl
  obtain ⟨m', i', heq, hj⟩ := (built_inv d g h).sound _ _ hv
  rw [Node.segment.injEq] at heq
  obtain ⟨rfl, rfl⟩ := heq
  exact ⟨hj.1, hj.2.1⟩

theorem adj_entry_iff (g : Graph) (i j : Fin g.nodes.length) :
    adjacencyMatrix g i j ≠ 0 ↔ (g.nodes.get i, g.nodes.get j) ∈ g.edges := by
  by_cases hmem : (g.nodes.get i, g.nodes.get j) ∈ g.edges
  · simp [adjacencyMatrix, hmem]
  · simp [adjacencyMatrix, hmem]

theorem pathLen_target_mem (g : Graph)
    (hend : ∀ e ∈ g.edges, e.1 ∈ g.nodes ∧ e.2 ∈ g.nodes) :
    ∀ (dpt : Nat) (u w : Node), PathLen g dpt u w → u ∈ g.nodes → w ∈ g.nodes := by
  intro dpt
  induction dpt with
  | zero =>
    intro u w hp hu
    exact (show u = w from hp) ▸ hu
  | succ k ihk =>
    intro u w hp hu
    obtain ⟨v, he, hp'⟩ := hp
    exact ihk v w hp' (hend _ he).2

theorem sum_ne_zero_exists {n : Nat} (f : Fin n → ℕ) (h : ∑ x : Fin n, f x ≠ 0) :
    ∃ x, f x ≠ 0 := by
  by_contra hc
  push_neg at hc
  exact h (Finset.sum_eq_zero fun x _ => hc x)

theorem adj_pow_ne_zero_iff (g : Graph) (hnd : g.nodes.Nodup)
    (hend : ∀ e ∈ g.edges, e.1 ∈ g.nodes ∧ e.2 ∈ g.nodes) :
    ∀ (dpt : Nat) (i j : Fin g.nodes.length),
      (adjacencyMatrix g ^ dpt) i j ≠ 0 ↔
        PathLen g dpt (g.nodes.get i) (g.nodes.get j) := by
  intro dpt
  induction dpt with
  | zero =>
    intro i j
    rw [pow_zero]
    show (1 : Matrix _ _ ℕ) i j ≠ 0 ↔ g.nodes.get i = g.nodes.get j
    rw [Matrix.one_apply, hnd.get_inj_iff]
    by_cases hij : i = j <;> simp [hij]
  | succ k ihk =>
    intro i j
    rw [pow_succ', Matrix.mul_apply]
    constructor
    · intro hne
      obtain ⟨x, hx⟩ := sum_ne_zero_exists _ hne
      rw [Nat.mul_ne_zero_iff] at hx
      exact ⟨g.nodes.get x, (adj_entry_iff g i x).mp hx.1, (ihk x j).mp hx.2⟩
    · rintro ⟨v, he, hp⟩
      have hvmem : v ∈ g.nodes := (hend _ he).2
      obtain ⟨x, hx⟩ := List.mem_iff_get.mp hvmem
      intro hzero
      rw [Finset.sum_eq_zero_iff] at hzero
      have hterm := hzero x (Finset.mem_univ x)
      rw [Nat.mul_eq_zero] at hterm
      rcases hterm with h1 | h2
      · exact (adj_entry_iff g i x).mpr (by rw [hx]; exact he) h1
      · exact (ihk x j).mpr (by rw [hx]; exact hp) h2

theorem adj_pow_row_unique (g : Graph) (hnd : g.nodes.Nodup)
    (hfun : ∀ u v v', (u, v) ∈ g.edges → (u, v') ∈ g.edges → v = v') :
    ∀ (dpt : Nat) (i j j' : Fin g.nodes.length),
      (adjacencyMatrix g ^ dpt) i j ≠ 0 → (adjacencyMatrix g ^ dpt) i j' ≠ 0 →
        j = j' := by
  intro dpt
  induction dpt with
  | zero =>
    intro i j j' h1 h2
    rw [pow_zero, Matrix.one_apply] at h1 h2
    have e1 : i = j := by by_contra hc; simp [hc] at h1
    have e2 : i = j' := by by_contra hc; simp [hc] at h2
    rw [← e1, ← e2]
  | succ k ihk =>
    intro i j j' h1 h2
    rw [pow_succ', Matrix.mul_apply] at h1 h2
    obtain ⟨x, hx⟩ := sum_ne_zero_exists _ h1
    obtain ⟨y, hy⟩ := sum_ne_zero_exists _ h2
    rw [Nat.mul_ne_zero_iff] at hx hy
    have hxe := (adj_entry_iff g i x).mp hx.1
    have hye := (adj_entry_iff g i y).mp hy.1
    have : x = y := hnd.get_inj_iff.mp (hfun _ _ _ hxe hye)
    exact ihk x j j' hx.2 (this ▸ hy.2)

theorem pathLen_unique (g : Graph)
    (hfun : ∀ u v v', (u, v) ∈ g.edges → (u, v') ∈ g.edges → v = v') :
    ∀ (dpt : Nat) (u w w' : Node), PathLen g dpt u w → PathLen g dpt u w' → w = w' := by
  intro dpt
  induction dpt with
  | zero =>
    intro u w w' h1 h2
    exact (show u = w from h1).symm.trans (show u = w' from h2)
  | succ k ihk =>
    intro u w w' h1 h2
    obtain ⟨v, he, hp⟩ := h1
    obtain ⟨v', he', hp'⟩ := h2
    obtain rfl := hfun u v v' he he'
    exact ihk v w w' hp hp'

theorem dictInsert_of_not_mem_keys (m : List (Node × Node)) (k v : Node)
    (h : k ∉ m.map Prod.fst) : dictInsert m k v = m ++ [(k, v)] := by
  induction m with
  | nil => rfl
  | cons p t iht =>
    obtain ⟨k', v'⟩ := p
    simp only [List.map_cons, List.mem_cons] at h
    push_neg at h
    simp only [dictInsert]
    rw [if_neg fun e => h.1 e.symm, iht h.2]
    simp

theorem lookup_eq_some_iff (m : List (Node × Node)) :
    (m.map Prod.fst).Nodup →
    ∀ u v : Node, m.lookup u = some v ↔ (u, v) ∈ m := by
  induction m with
  | nil =>
    intro _ u v
    simp [List.lookup]
  | cons p t iht =>
    intro hk u v
    obtain ⟨k, w⟩ := p
    simp only [List.map_cons, List.nodup_cons] at hk
    rw [List.lookup_cons]
    by_cases hku : u = k
    · subst hku
      simp only [beq_self_eq_true]
      constructor
      · intro hs
        exact List.mem_cons.mpr (.inl (by rw [Option.some.inj hs]))
      · intro hmem
        rcases List.mem_cons.mp hmem with heq | htl
        · rw [Prod.mk.injEq] at heq
          rw [heq.2]
        · exact absurd (List.mem_map.mpr ⟨(u, v), htl, rfl⟩) hk.1
    · have hbeq : (u == k) = false := beq_eq_false_iff_ne.mpr hku
      rw [hbeq]
      rw [iht hk.2 u v]
      constructor
      · exact fun htl => List.mem_cons.mpr (.inr htl)
      · intro hmem
        rcases List.mem_cons.mp hmem with heq | htl
        · rw [Prod.mk.injEq] at heq
          exact absurd heq.1 hku
        · exact htl

theorem filterMap_length_le_one {α β : Type} (f : α → Option β) (l : List α) :
    l.Nodup → (∀ x ∈ l, ∀ y ∈ l, f x ≠ none → f y ≠ none → x = y) →
    (l.filterMap f).length ≤ 1 := by
  induction l with
  | nil =>
    intro _ _
    simp
  | cons a t iht =>
    intro hnd h
    cases hfa : f a with
    | none =>
      simp only [List.filterMap_cons, hfa]
      exact iht (List.Nodup.of_cons hnd)
        fun x hx y hy => h x (List.mem_cons_of_mem a hx) y (List.mem_cons_of_mem a hy)
    | some b =>
      simp only [List.filterMap_cons, hfa]
      have ht : t.filterMap f = [] := by
        rw [List.filterMap_eq_nil_iff]
        intro x hx
        by_contra hfx
        have hxa := h x (List.mem_cons_of_mem a hx) a (List.mem_cons_self a t) hfx
          (by rw [hfa]; exact fun hh => Option.noConfusion hh)
        rw [hxa] at hx
        exact (List.nodup_cons.mp hnd).1 hx
      rw [ht]
      simp

theorem nodup_map_key_flatMap {ι β : Type} (l : List ι) (f : ι → List β) (key : β → ι)
    (hlen : ∀ a, (f a).length ≤ 1) (hkey : ∀ a, ∀ p ∈ f a, key p = a) :
    l.Nodup → ((l.flatMap f).map key).Nodup := by
  induction l with
  | nil =>
    intro _
    simp
  | cons a t iht =>
    intro hnd
    simp only [List.flatMap_cons, List.map_append]
    rw [List.nodup_append]
    refine ⟨?_, iht (List.Nodup.of_cons hnd), ?_⟩
    · cases hfa : f a with
      | nil => simp
      | cons b t' =>
        have hl := hlen a
        rw [hfa] at hl
        simp only [List.length_cons] at hl
        have ht' : t' = [] := List.length_eq_zero.mp (by omega)
        rw [ht']
        simp
    · intro x hx1 hx2
      rcases List.mem_map.mp hx1 with ⟨p, hp, rfl⟩
      rcases List.mem_map.mp hx2 with ⟨q, hq, hkq⟩
      rcases List.mem_flatMap.mp hq with ⟨b, hb, hqb⟩
      have h1 : key p = a := hkey a p hp
      have h2 : key q = b := hkey b q hqb
      rw [h1] at hkq
      rw [h2] at hkq
      rw [hkq] at hb
      exact (List.nodup_cons.mp hnd).1 hb

theorem mem_matFind {m : Nat} (M : Matrix (Fin m) (Fin m) ℕ) (p : Fin m × Fin m) :
    p ∈ matFind M ↔ M p.1 p.2 ≠ 0 := by
  unfold matFind
  rw [List.mem_flatMap]
  constructor
  · rintro ⟨i, -, hmem⟩
    rw [List.mem_filterMap] at hmem
    obtain ⟨j, -, hj⟩ := hmem
    by_cases hz : M i j ≠ 0
    · rw [if_pos hz] at hj
      obtain rfl := Option.some.inj hj
      exact hz
    · rw [if_neg hz] at hj
      exact Option.noConfusion hj
  · intro hz
    exact ⟨p.1, List.mem_finRange _,
      List.mem_filterMap.mpr ⟨p.2, List.mem_finRange _, by rw [if_pos hz]⟩⟩

theorem matFind_keys_nodup {m : Nat} (M : Matrix (Fin m) (Fin m) ℕ)
    (hrow : ∀ i j j', M i j ≠ 0 → M i j' ≠ 0 → j = j') :
    ((matFind M).map Prod.fst).Nodup := by
  unfold matFind
  apply nodup_map_key_flatMap _ _ _ ?_ ?_ (List.nodup_finRange m)
  · intro i
    apply filterMap_length_le_one _ _ (List.nodup_finRange m)
    intro x hx y hy hfx hfy
    have hx0 : M i x ≠ 0 := by
      by_cases hcx : M i x ≠ 0
      · exact hcx
      · rw [if_neg hcx] at hfx
        exact absurd rfl hfx
    have hy0 : M i y ≠ 0 := by
      by_cases hcy : M i y ≠ 0
      · exact hcy
      · rw [if_neg hcy] at hfy
        exact absurd rfl hfy
    exact hrow i x y hx0 hy0
  · intro i p hp
    rw [List.mem_filterMap] at hp
    obtain ⟨j, -, hj⟩ := hp
    split at hj
    · obtain rfl := Option.some.inj hj
      rfl
    · exact Option.noConfusion hj

theorem foldl_dictInsert_eq_append {ι : Type} (f : ι → Node × Node) :
    ∀ (P : List ι) (acc : List (Node × Node)),
      ((acc ++ P.map f).map Prod.fst).Nodup →
      P.foldl (fun macc p => dictInsert macc (f p).1 (f p).2) acc = acc ++ P.map f := by
  intro P
  induction P with
  | nil =>
    intro acc _
    simp
  | cons p t iht =>
    intro acc hnd
    rw [List.foldl_cons]
    have hkey : (f p).1 ∉ acc.map Prod.fst := by
      rw [List.map_append, List.nodup_append] at hnd
      intro hc
      exact hnd.2.2 hc (by simp)
    have hstep : dictInsert acc (f p).1 (f p).2 = acc ++ [f p] := by
      rw [dictInsert_of_not_mem_keys _ _ _ hkey]
    rw [hstep]
    have hnd' : (((acc ++ [f p]) ++ t.map f).map Prod.fst).Nodup := by
      rw [List.append_assoc]
      simpa using hnd
    rw [iht (acc ++ [f p]) hnd']
    simp

theorem buildMapping_eq (nodes : List Node) (hnd : nodes.Nodup)
    (P : List (Fin nodes.length × Fin nodes.length))
    (hkeys : (P.map Prod.fst).Nodup) :
    buildMapping nodes P = P.map fun p => (nodes.get p.1, nodes.get p.2) := by
  unfold buildMapping
  have hside : ((([] : List (Node × Node)) ++
      P.map fun p => (nodes.get p.1, nodes.get p.2)).map Prod.fst).Nodup := by
    rw [List.nil_append]
    have hmm : (P.map fun p => (nodes.get p.1, nodes.get p.2)).map Prod.fst =
        (P.map Prod.fst).map nodes.get := by
      rw [List.map_map, List.map_map]
      rfl
    rw [hmm]
    exact List.Nodup.map (List.nodup_iff_injective_get.mp hnd) hkeys
  have := foldl_dictInsert_eq_append (fun p => (nodes.get p.1, nodes.get p.2)) P [] hside
  simpa using this

theorem cpm_keys_nodup (g : Graph) (hnd : g.nodes.Nodup)
    (hfun : ∀ u v v', (u, v) ∈ g.edges → (u, v') ∈ g.edges → v = v')
    (deg : Nat) :
    ((buildMapping g.nodes (matFind (adjacencyMatrix g ^ deg))).map Prod.fst).Nodup := by
  rw [buildMapping_eq g.nodes hnd _
    (matFind_keys_nodup _ (adj_pow_row_unique g hnd hfun deg))]
  have hmm : ((matFind (adjacencyMatrix g ^ deg)).map
        fun p => (g.nodes.get p.1, g.nodes.get p.2)).map Prod.fst =
      ((matFind (adjacencyMatrix g ^ deg)).map Prod.fst).map g.nodes.get := by
    rw [List.map_map, List.map_map]
    rfl
  rw [hmm]
  exact List.Nodup.map (List.nodup_iff_injective_get.mp hnd)
    (matFind_keys_nodup _ (adj_pow_row_unique g hnd hfun deg))

theorem cpm_lookup_iff (g : Graph) (hnd : g.nodes.Nodup)
    (hfun : ∀ u v v', (u, v) ∈ g.edges → (u, v') ∈ g.edges → v = v')
    (deg : Nat) (u v : Node) :
    (buildMapping g.nodes (matFind (adjacencyMatrix g ^ deg))).lookup u = some v ↔
      ∃ i j : Fin g.nodes.length, g.nodes.get i = u ∧ g.nodes.get j = v ∧
        (adjacencyMatrix g ^ deg) i j ≠ 0 := by
  rw [lookup_eq_some_iff _ (cpm_keys_nodup g hnd hfun deg)]
  rw [buildMapping_eq g.nodes hnd _
    (matFind_keys_nodup _ (adj_pow_row_unique g hnd hfun deg))]
  rw [List.mem_map]
  constructor
  · rintro ⟨p, hp, hpe⟩
    rw [Prod.mk.injEq] at hpe
    exact ⟨p.1, p.2, hpe.1, hpe.2, (mem_matFind _ _).mp hp⟩
  · rintro ⟨i, j, h1, h2, h3⟩
    exact ⟨(i, j), (mem_matFind _ _).mpr h3, by rw [Prod.mk.injEq]; exact ⟨h1, h2⟩⟩

theorem cpm_ok_elim (g : Graph) (deg : Int) (hdeg : ¬deg < 0)
    (mp : List (Node × Node))
    (hmp : child_to_parent_mapping g (some deg) = .ok mp) :
    mp = buildMapping g.nodes (matFind (adjacencyMatrix g ^ deg.toNat)) := by
  unfold child_to_parent_mapping at hmp
  simp only [Option.getD_some] at hmp
  split_ifs at hmp
  exact (Except.ok.inj hmp).symm

theorem filter_key_length_one {α : Type} (key : α → Node) (u : Node) :
    ∀ l : List α, (l.map key).Nodup → (∃ x ∈ l, key x = u) →
      (l.filter fun x => key x == u).length = 1 := by
  intro l
  induction l with
  | nil =>
    rintro _ ⟨x, hx, -⟩
    cases hx
  | cons a t iht =>
    intro hnd hex
    have hnd' : key a ∉ t.map key ∧ (t.map key).Nodup := by
      rw [List.map_cons, List.nodup_cons] at hnd
      exact hnd
    rw [List.filter_cons]
    by_cases hk : key a = u
    · rw [if_pos (by simpa using hk)]
      simp only [List.length_cons, Nat.succ_eq_add_one]
      have hnil : (t.filter fun x => key x == u) = [] := by
        rw [List.filter_eq_nil_iff]
        intro x hx hkx
        rw [beq_iff_eq] at hkx
        exact hnd'.1 (List.mem_map.mpr ⟨x, hx, by rw [hkx, hk]⟩)
      rw [hnil]
      rfl
    · rw [if_neg (by simpa using hk)]
      apply iht hnd'.2
      obtain ⟨x, hx, hkx⟩ := hex
      rcases List.mem_cons.mp hx with rfl | hxt
      · exact absurd hkx hk
      · exact ⟨x, hxt, hkx⟩

/-- C1: for every segment processed by `get_history_graph`, a non-negative
`parent_id` decodes to the segment at index `parent_id` of the immediately
preceding iteration's ordered list, and a negative `parent_id` decodes to the
initial state whose `state_id` is `-(parent_id + 1)`; in particular
`parent_id = 3` decodes to the segment at index 3 and `parent_id = -2`
decodes to the initial state with `state_id = 1`. -/
theorem claim_C1 (d : WEData) (g : Graph) (h : get_history_graph d = .ok g) :
    (∀ u v, (u, v) ∈ g.edges → ∃ m i, u = Node.segment m i ∧
      ∃ hm : i < (d.segments m).length,
        (0 ≤ (d.segments m).get ⟨i, hm⟩ →
          v = Node.segment (m - 1) ((d.segments m).get ⟨i, hm⟩).toNat) ∧
        ((d.segments m).get ⟨i, hm⟩ < 0 →
          v = Node.initialState m (-((d.segments m).get ⟨i, hm⟩ + 1)).toNat)) ∧
    (∀ n prevLen istates, 3 < prevLen →
      decodeParent n prevLen istates 3 = .ok (Node.segment (n - 1) 3)) ∧
    (∀ n prevLen istates, 1 ∈ istates →
      decodeParent n prevLen istates (-2) = .ok (Node.initialState n 1)) := by
  refine ⟨?_, ?_, ?_⟩
  · intro u v he
    obtain ⟨m, i, rfl, hj⟩ := (built_inv d g h).sound u v he
    obtain ⟨hm1, hm2, hlen, hdec⟩ := hj
    refine ⟨m, i, rfl, hlen, ?_, ?_⟩
    · intro hpos
      unfold decodeParent at hdec
      rw [if_pos hpos] at hdec
      split at hdec
      · exact (Except.ok.inj hdec).symm
      · exact Except.noConfusion hdec
    · intro hneg
      unfold decodeParent at hdec
      rw [if_neg (Int.not_le.mpr hneg)] at hdec
      dsimp only at hdec
      split at hdec
      · exact (Except.ok.inj hdec).symm
      · exact Except.noConfusion hdec
  · intro n prevLen istates hlt
    unfold decodeParent
    rw [if_pos (by norm_num), if_pos (by simpa using hlt)]
    rfl
  · intro n prevLen istates hmem
    unfold decodeParent
    rw [if_neg (by norm_num)]
    dsimp only
    rw [if_pos (by simpa using hmem)]
    rfl

theorem claim_C1_witness :
    decodeParent 2 5 [0, 1] 3 = .ok (Node.segment 1 3) ∧
    decodeParent 2 5 [0, 1] (-2) = .ok (Node.initialState 2 1) :=
  ⟨(claim_C1 dA gA (by decide)).2.1 2 5 [0, 1] (by decide),
   (claim_C1 dA gA (by decide)).2.2 2 5 [0, 1] (by decide)⟩

/-- C2 as stated is false: on Scenario A the graph does have 7 nodes and 5
edges, but the depth-2 ancestor of the iteration-3 segment is the iteration-1
segment at index 0, which is not an initial state (the initial state with
`state_id = 0` is only reached at depth 3). -/
theorem claim_C2_counterexample :
    get_history_graph dA = .ok gA ∧
    gA.nodes.length = 7 ∧ gA.edges.length = 5 ∧
    child_to_parent_mapping gA (some 2) =
      .ok [(Node.segment 2 0, Node.initialState 1 0),
           (Node.segment 2 1, Node.initialState 1 1),
           (Node.segment 3 0, Node.segment 1 0)] ∧
    (Node.segment 1 0).isInitialState = false ∧
    Node.segment 1 0 ≠ Node.initialState 1 0 := by decide

/-- C2 amended: on Scenario A the built graph has exactly 7 nodes and 5
edges; the ancestor mapping at depth 2 maps the iteration-3 segment to the
iteration-1 segment at index 0, and it is the mapping at depth 3 that maps it
to the initial state with `state_id = 0`. -/
theorem claim_C2_amended :
    get_history_graph dA = .ok gA ∧
    gA.nodes.length = 7 ∧ gA.edges.length = 5 ∧
    (child_to_parent_mapping gA (some 2)).map
        (fun mp => mp.lookup (Node.segment 3 0)) =
      .ok (some (Node.segment 1 0)) ∧
    (child_to_parent_mapping gA (some 3)).map
        (fun mp => mp.lookup (Node.segment 3 0)) =
      .ok (some (Node.initialState 1 0)) := by decide

/-- C3 as stated is false-in-part: an unresolvable parent reference does
abort the construction with an error and no graph is returned, but the two
failure modes do not raise a single dedicated `MalformedLineageError` (no
such class exists in the code): an out-of-range non-negative `parent_id`
raises Python's `IndexError` while an unknown initial-state id raises
`KeyError`, two distinct exceptions. -/
theorem claim_C3_counterexample :
    get_history_graph dB = .error .indexError ∧
    get_history_graph dBk = .error .keyError ∧
    PyError.indexError ≠ PyError.keyError := by decide

/-- C3 amended: decoding a non-negative `parent_id` that is out of range
raises `IndexError`, and decoding a negative `parent_id` whose derived
`state_id` is absent raises `KeyError`; in either case construction aborts
immediately and no (partially built) graph is returned. -/
theorem claim_C3_amended :
    (∀ n prevLen istates (pid : Int), 0 ≤ pid → prevLen ≤ pid.toNat →
      decodeParent n prevLen istates pid = .error .indexError) ∧
    (∀ n prevLen istates (pid : Int), pid < 0 → (-(pid + 1)).toNat ∉ istates →
      decodeParent n prevLen istates pid = .error .keyError) ∧
    (∀ (d : WEData) (n i : Nat), 1 ≤ n → n < d.current_iteration →
      ∀ hi : i < (d.segments n).length, ∀ e,
      decodeParent n (prevLenOf d n) (d.initial_states n)
        ((d.segments n).get ⟨i, hi⟩) = .error e →
      ∀ g, get_history_graph d ≠ .ok g) := by
  refine ⟨?_, ?_, ?_⟩
  · intro n prevLen istates pid hpos hge
    unfold decodeParent
    rw [if_pos hpos, if_neg (by omega)]
  · intro n prevLen istates pid hneg hnot
    unfold decodeParent
    rw [if_neg (Int.not_le.mpr hneg)]
    dsimp only
    rw [if_neg hnot]
  · intro d n i hn1 hnC hi e hdec g hok
    obtain ⟨v, hv, -⟩ := (built_inv d g hok).compl n i (.inl (by omega)) hn1 hnC hi
    rw [hdec] at hv
    exact Except.noConfusion hv

theorem claim_C3_amended_witness :
    decodeParent 2 3 [0] 5 = .error .indexError ∧
    get_history_graph dB ≠ .ok gA :=
  ⟨claim_C3_amended.1 2 3 [0] 5 (by decide) (by decide),
   claim_C3_amended.2.2 dB 2 0 (by decide) (by decide) (by decide)
     PyError.indexError (by decide) gA⟩

/-- C5 as stated is false: an empty simulation does yield the empty graph,
but `child_to_parent_mapping` on the empty graph raises (networkx's
adjacency-matrix construction rejects a graph with no nodes) instead of
returning an empty mapping. -/
theorem claim_C5_counterexample :
    get_history_graph dEmpty = .ok Graph.empty ∧
    child_to_parent_mapping Graph.empty (some 1) = .error .networkXError := by
  decide

/-- C5 amended: an empty simulation (`current_iteration = 1`, no segments)
yields the empty graph, and on the empty graph the ancestor resolver raises
`NetworkXError` for every depth (explicit or omitted) instead of returning an
empty mapping. -/
theorem claim_C5_amended :
    get_history_graph dEmpty = .ok Graph.empty ∧
    ∀ degree : Option Int,
      child_to_parent_mapping Graph.empty degree = .error .networkXError := by
  exact ⟨by decide, fun degree => rfl⟩

/-- C10: omitting the `degree` argument of `child_to_parent_mapping` is the
same as passing the default `degree = 1`. -/
theorem claim_C10 (g : Graph) :
    child_to_parent_mapping g none = child_to_parent_mapping g (some 1) := rfl

/-- C4 as stated is false: calling the resolver with `degree = 0` raises no
error at all — the scipy sparse-matrix power at exponent `0` is the identity
matrix, so the call returns the identity mapping on the graph's nodes. -/
theorem claim_C4_counterexample :
    get_history_graph dA = .ok gA ∧
    child_to_parent_mapping gA (some 0) =
      .ok [(Node.segment 1 0, Node.segment 1 0),
           (Node.initialState 1 0, Node.initialState 1 0),
           (Node.segment 1 1, Node.segment 1 1),
           (Node.initialState 1 1, Node.initialState 1 1),
           (Node.segment 2 0, Node.segment 2 0),
           (Node.segment 2 1, Node.segment 2 1),
           (Node.segment 3 0, Node.segment 3 0)] := by decide

/-- C4 amended: on a (nonempty) built graph, `degree = 0` returns the
identity mapping (each node mapped to itself) without raising, while a
negative degree raises scipy's `ValueError`; there is no `InvalidLagError`.
The graph is a read-only input either way. -/
theorem claim_C4_amended (d : WEData) (g : Graph) (h : get_history_graph d = .ok g)
    (hne : g.nodes ≠ []) :
    (∃ mp, child_to_parent_mapping g (some 0) = .ok mp ∧
      ∀ u v : Node, mp.lookup u = some v ↔ u ∈ g.nodes ∧ v = u) ∧
    (∀ deg : Int, deg < 0 →
      child_to_parent_mapping g (some deg) = .error .valueError) := by
  have hnd := (built_inv d g h).nodup
  have hfun := built_functional d g h
  have hlen : ¬g.nodes.length = 0 := by
    simpa [List.length_eq_zero] using hne
  constructor
  · refine ⟨buildMapping g.nodes (matFind (adjacencyMatrix g ^ (0 : Nat))), ?_, ?_⟩
    · unfold child_to_parent_mapping
      simp only [Option.getD_some]
      rw [if_neg hlen, if_neg (by omega)]
      rfl
    · intro u v
      rw [cpm_lookup_iff g hnd hfun 0 u v]
      constructor
      · rintro ⟨i, j, rfl, rfl, hij⟩
        rw [pow_zero, Matrix.one_apply] at hij
        have hji : i = j := by
          by_contra hc
          simp [hc] at hij
        exact ⟨List.get_mem _ _ _, by rw [hji]⟩
      · rintro ⟨hu, rfl⟩
        obtain ⟨i, hi⟩ := List.mem_iff_get.mp hu
        exact ⟨i, i, hi, hi, by rw [pow_zero, Matrix.one_apply]; simp⟩
  · intro deg hdeg
    unfold child_to_parent_mapping
    simp only [Option.getD_some]
    rw [if_neg hlen, if_pos hdeg]

theorem claim_C4_amended_witness :
    child_to_parent_mapping gA (some (-1)) = .error .valueError :=
  (claim_C4_amended dA gA (by decide) (by decide)).2 (-1) (by decide)

/-- C6: for every built genealogy graph, the mapping at depth 1 is exactly
the set of direct parent edges: every segment node of the graph is a key,
mapped to the unique target of its single outgoing edge, and every entry of
the mapping is an edge of the graph. -/
theorem claim_C6 (d : WEData) (g : Graph) (h : get_history_graph d = .ok g)
    (mp : List (Node × Node))
    (hmp : child_to_parent_mapping g (some 1) = .ok mp) :
    (∀ s, s ∈ g.nodes → s.isSegment = true →
      ∃ v, (s, v) ∈ g.edges ∧ (∀ w, (s, w) ∈ g.edges → w = v) ∧
        mp.lookup s = some v) ∧
    (∀ u v, mp.lookup u = some v → (u, v) ∈ g.edges) := by
  have inv := built_inv d g h
  have hfun := built_functional d g h
  have hmpe := cpm_ok_elim g 1 (by omega) mp hmp
  have hlook : ∀ u v : Node, mp.lookup u = some v ↔
      ∃ i j : Fin g.nodes.length, g.nodes.get i = u ∧ g.nodes.get j = v ∧
        (adjacencyMatrix g ^ ((1 : Int)).toNat) i j ≠ 0 := by
    intro u v
    rw [hmpe]
    exact cpm_lookup_iff g inv.nodup hfun _ u v
  have hpow : ∀ i j : Fin g.nodes.length,
      (adjacencyMatrix g ^ ((1 : Int)).toNat) i j ≠ 0 ↔
        (g.nodes.get i, g.nodes.get j) ∈ g.edges := by
    intro i j
    have h1 : ((1 : Int)).toNat = 1 := rfl
    rw [h1, pow_one]
    exact adj_entry_iff g i j
  constructor
  · intro s hs hseg
    obtain ⟨v, hv⟩ := inv.segEdge s hs hseg
    refine ⟨v, hv, fun w hw => hfun s w v hw hv, ?_⟩
    rw [hlook]
    obtain ⟨i, hi⟩ := List.mem_iff_get.mp (inv.endp _ hv).1
    obtain ⟨j, hj⟩ := List.mem_iff_get.mp (inv.endp _ hv).2
    exact ⟨i, j, hi, hj, (hpow i j).mpr (by rw [hi, hj]; exact hv)⟩
  · intro u v huv
    rw [hlook] at huv
    obtain ⟨i, j, rfl, rfl, hij⟩ := huv
    exact (hpow i j).mp hij

theorem claim_C6_witness :
    (Node.segment 3 0, Node.segment 2 0) ∈ gA.edges :=
  (claim_C6 dA gA (by decide)
    [(Node.segment 1 0, Node.initialState 1 0),
     (Node.segment 1 1, Node.initialState 1 1),
     (Node.segment 2 0, Node.segment 1 0),
     (Node.segment 2 1, Node.segment 1 1),
     (Node.segment 3 0, Node.segment 2 0)] (by decide)).2
    (Node.segment 3 0) (Node.segment 2 0) (by decide)

/-- C7: for every built genealogy graph and positive depth, an entry of the
`depth`-th power of the adjacency matrix is nonzero exactly when a path of
length exactly `depth` joins the corresponding nodes; each row has at most
one nonzero entry; and the resulting mapping has exactly the nodes with an
ancestor `depth` hops back as keys, each sent to that unique ancestor, with
all other nodes absent. -/
theorem claim_C7 (d : WEData) (g : Graph) (h : get_history_graph d = .ok g)
    (dpt : Nat) (hdpt : 0 < dpt) :
    (∀ i j : Fin g.nodes.length,
      (adjacencyMatrix g ^ dpt) i j ≠ 0 ↔
        PathLen g dpt (g.nodes.get i) (g.nodes.get j)) ∧
    (∀ i j j' : Fin g.nodes.length,
      (adjacencyMatrix g ^ dpt) i j ≠ 0 → (adjacencyMatrix g ^ dpt) i j' ≠ 0 →
        j = j') ∧
    (∀ mp, child_to_parent_mapping g (some (dpt : Int)) = .ok mp →
      (∀ u v, mp.lookup u = some v → PathLen g dpt u v) ∧
      (∀ u, (∃ v, mp.lookup u = some v) ↔
        u ∈ g.nodes ∧ ∃ w, PathLen g dpt u w) ∧
      (∀ u v v', PathLen g dpt u v → PathLen g dpt u v' → v = v')) := by
  have inv := built_inv d g h
  have hfun := built_functional d g h
  refine ⟨adj_pow_ne_zero_iff g inv.nodup inv.endp dpt,
    adj_pow_row_unique g inv.nodup hfun dpt, ?_⟩
  intro mp hmp
  have hmpe := cpm_ok_elim g (dpt : Int) (by omega) mp hmp
  have hcast : ((dpt : Int)).toNat = dpt := Int.toNat_natCast dpt
  rw [hcast] at hmpe
  have hlook : ∀ u v : Node, mp.lookup u = some v ↔
      ∃ i j : Fin g.nodes.length, g.nodes.get i = u ∧ g.nodes.get j = v ∧
        (adjacencyMatrix g ^ dpt) i j ≠ 0 := by
    intro u v
    rw [hmpe]
    exact cpm_lookup_iff g inv.nodup hfun dpt u v
  refine ⟨?_, ?_, pathLen_unique g hfun dpt⟩
  · intro u v huv
    rw [hlook] at huv
    obtain ⟨i, j, rfl, rfl, hij⟩ := huv
    exact (adj_pow_ne_zero_iff g inv.nodup inv.endp dpt i j).mp hij
  · intro u
    constructor
    · rintro ⟨v, hv⟩
      rw [hlook] at hv
      obtain ⟨i, j, rfl, rfl, hij⟩ := hv
      exact ⟨List.get_mem _ _ _,
        ⟨_, (adj_pow_ne_zero_iff g inv.nodup inv.endp dpt i j).mp hij⟩⟩
    · rintro ⟨hu, w, hw⟩
      obtain ⟨i, hi⟩ := List.mem_iff_get.mp hu
      have hwmem : w ∈ g.nodes := pathLen_target_mem g inv.endp dpt u w hw hu
      obtain ⟨j, hj⟩ := List.mem_iff_get.mp hwmem
      refine ⟨g.nodes.get j, ?_⟩
      rw [hlook]
      refine ⟨i, j, hi, rfl, (adj_pow_ne_zero_iff g inv.nodup inv.endp dpt i j).mpr ?_⟩
      rw [hi, hj]
      exact hw

theorem claim_C7_witness :
    PathLen gA 2 (Node.segment 3 0) (Node.segment 1 0) :=
  ((claim_C7 dA gA (by decide) 2 (by decide)).2.2
    [(Node.segment 2 0, Node.initialState 1 0),
     (Node.segment 2 1, Node.initialState 1 1),
     (Node.segment 3 0, Node.segment 1 0)] (by decide)).1
    (Node.segment 3 0) (Node.segment 1 0) (by decide)

/-- C8 as stated is false: in Scenario A's built graph the iteration-1
segment at index 0 has an initial-state parent, yet its out-degree is 1 (its
edge to that initial state), not 0. -/
theorem claim_C8_counterexample :
    get_history_graph dA = .ok gA ∧
    (Node.segment 1 0, Node.initialState 1 0) ∈ gA.edges ∧
    gA.outDeg (Node.segment 1 0) = 1 ∧
    gA.outDeg (Node.segment 1 0) ≠ 0 := by decide

/-- C8 amended: in every built genealogy graph, every Segment node —
iteration-1 segments included — has out-degree exactly 1, and every
InitialState node has out-degree 0. -/
theorem claim_C8_amended (d : WEData) (g : Graph)
    (h : get_history_graph d = .ok g) :
    (∀ u, u ∈ g.nodes → u.isSegment = true → g.outDeg u = 1) ∧
    (∀ u, u.isInitialState = true → g.outDeg u = 0) := by
  have inv := built_inv d g h
  constructor
  · intro u hu hseg
    obtain ⟨v, hv⟩ := inv.segEdge u hu hseg
    unfold Graph.outDeg
    exact filter_key_length_one Prod.fst u g.edges inv.srcN ⟨(u, v), hv, rfl⟩
  · intro u hinit
    unfold Graph.outDeg
    have hnil : (g.edges.filter fun e => e.1 == u) = [] := by
      rw [List.filter_eq_nil_iff]
      intro e he hke
      rw [beq_iff_eq] at hke
      obtain ⟨m, i, heq, -⟩ := inv.sound e.1 e.2 he
      rw [hke] at heq
      rw [heq] at hinit
      simp [Node.isInitialState] at hinit
    rw [hnil]
    rfl

theorem claim_C8_amended_witness :
    gA.outDeg (Node.segment 2 1) = 1 ∧ gA.outDeg (Node.initialState 1 1) = 0 :=
  ⟨(claim_C8_amended dA gA (by decide)).1 (Node.segment 2 1) (by decide) rfl,
   (claim_C8_amended dA gA (by decide)).2 (Node.initialState 1 1) rfl⟩

theorem buildLoop_congr (d d' : WEData) :
    ∀ (k n : Nat) (prev : List Int) (g : Graph),
      (∀ m, n ≤ m → m < n + k → d'.segments m = d.segments m ∧
        d'.initial_states m = d.initial_states m) →
      buildLoop d' k n prev g = buildLoop d k n prev g := by
  intro k
  induction k with
  | zero =>
    intro n prev g _
    simp only [buildLoop]
  | succ k ihk =>
    intro n prev g hagree
    simp only [buildLoop]
    rw [(hagree n le_rfl (by omega)).1, (hagree n le_rfl (by omega)).2]
    cases ha : addIterEdges n prev.length (d.initial_states n) (d.segments n) 0 g with
    | error e => rfl
    | ok g1 =>
      simp only [Bind.bind, Except.bind]
      exact ihk (n + 1) (d.segments n) g1
        fun m hm1 hm2 => hagree m (by omega) (by omega)

/-- C9: the builder touches only iterations `1` through
`current_iteration - 1`: every segment node of the built graph, whether it
appears as a child or as a parent of an edge, belongs to one of those
iterations, and the result is unchanged by arbitrary modification of the
archive outside that range — segments of the final iteration are never
fetched. -/
theorem claim_C9 (d : WEData) (g : Graph) (h : get_history_graph d = .ok g) :
    (∀ m i, Node.segment m i ∈ g.nodes → 1 ≤ m ∧ m < d.current_iteration) ∧
    (∀ u v, (u, v) ∈ g.edges → ∀ m i,
      (u = Node.segment m i ∨ v = Node.segment m i) →
      1 ≤ m ∧ m < d.current_iteration) ∧
    (∀ d' : WEData, d'.current_iteration = d.current_iteration →
      (∀ n, 1 ≤ n → n < d.current_iteration →
        d'.segments n = d.segments n ∧ d'.initial_states n = d.initial_states n) →
      get_history_graph d' = .ok g) := by
  have inv := built_inv d g h
  refine ⟨built_seg_bound d g h, ?_, ?_⟩
  · intro u v he m i hcase
    rcases hcase with rfl | rfl
    · exact built_seg_bound d g h m i (inv.endp _ he).1
    · exact built_seg_bound d g h m i (inv.endp _ he).2
  · intro d' hC hagree
    unfold get_history_graph
    rw [hC]
    rw [buildLoop_congr d d' (d.current_iteration - 1) 1 [] Graph.empty
      fun m hm1 hm2 => hagree m hm1 (by omega)]
    exact h

theorem claim_C9_witness : 1 ≤ 3 ∧ 3 < dA.current_iteration :=
  (claim_C9 dA gA (by decide)).1 3 0 (by decide)

theorem claim_C10_witness :
    child_to_parent_mapping gA none = child_to_parent_mapping gA (some 1) :=
  claim_C10 gA
